import Mathlib

/-!
Shallow embedding of the sing-geosite transformation pipeline
(src/sing-geosite/main.go): decoding upstream v2ray geosite records into
normalized rule items, attribute fan-out into pseudo-categories,
deduplication, subset selection, rule compilation into the four matcher
buckets, and the release freshness gate.
-/

set_option maxRecDepth 8192

namespace SingGeosite

/-- Rule item kinds, after `geosite.RuleTypeDomain`, `RuleTypeDomainSuffix`,
`RuleTypeDomainKeyword`, `RuleTypeDomainRegex` used in `parse`. -/
inductive RuleType where
  | domain
  | domainSuffix
  | domainKeyword
  | domainRegex
deriving DecidableEq

/-- Normalized rule item, after `geosite.Item{Type, Value}`. -/
structure Item where
  type : RuleType
  value : String
deriving DecidableEq

/-- One attribute tag of an upstream domain entry,
after `routercommon.Domain_Attribute` (only its `Key` is read by `parse`). -/
structure Attribute where
  key : String
deriving DecidableEq

/-- Upstream domain entry, after `routercommon.Domain{Type, Value, Attribute}`.
The protobuf `Type` field is an integer enum; values outside the four named
constants are possible on the wire, so it is embedded as `Nat`. -/
structure Domain where
  type : Nat
  value : String
  attributes : List Attribute
deriving DecidableEq

/-- Upstream category record, after `routercommon.GeoSite{CountryCode, Domain}`. -/
structure GeoSiteEntry where
  countryCode : String
  domain : List Domain
deriving DecidableEq

/-- `routercommon.Domain_Plain` enum value. -/
def Domain_Plain : Nat := 0

/-- `routercommon.Domain_Regex` enum value. -/
def Domain_Regex : Nat := 1

/-- `routercommon.Domain_RootDomain` enum value. -/
def Domain_RootDomain : Nat := 2

/-- `routercommon.Domain_Full` enum value. -/
def Domain_Full : Nat := 3

/-- Embeds `strings.Contains(s, ".")` (main.go lines 117 and 150): a
one-character needle is contained iff that character occurs in the string. -/
def containsDot (s : String) : Bool :=
  s.data.any (fun c => c = '.')

/-- Embeds `strings.ToLower` (main.go line 96) on the ASCII range,
character-wise lowercasing. -/
def goToLower (s : String) : String :=
  ⟨s.data.map Char.toLower⟩

/-- The type-mapping switch of `parse` (main.go lines 105-132; the attribute
loop at lines 138-165 repeats the identical switch): items emitted for one
upstream domain entry. Unmatched types fall through emitting nothing. -/
def itemsForDomain (d : Domain) : List Item :=
  if d.type = Domain_Plain then
    [⟨RuleType.domainKeyword, d.value⟩]
  else if d.type = Domain_Regex then
    [⟨RuleType.domainRegex, d.value⟩]
  else if d.type = Domain_RootDomain then
    (if containsDot d.value then [⟨RuleType.domain, d.value⟩] else []) ++
      [⟨RuleType.domainSuffix, "." ++ d.value⟩]
  else if d.type = Domain_Full then
    [⟨RuleType.domain, d.value⟩]
  else
    []

/-- Modelled from the spec: the Deduplicator (`common.Uniq`, not under src/).
Walks the list keeping a set of already-seen elements, dropping an element
when it was seen before — "output ordered sequence with structural duplicates
removed, keeping the first occurrence's position". -/
def uniqAux {α : Type} [DecidableEq α] (seen : List α) : List α → List α
  | [] => []
  | x :: xs => if x ∈ seen then uniqAux seen xs else x :: uniqAux (x :: seen) xs

/-- Modelled from the spec: the Deduplicator entry point (`common.Uniq`). -/
def uniq {α : Type} [DecidableEq α] (l : List α) : List α :=
  uniqAux [] l

/-- Index of the first occurrence of `a` in `l` (length of `l` when absent);
used to state first-occurrence ordering. -/
def firstIdx {α : Type} [DecidableEq α] (a : α) : List α → Nat
  | [] => 0
  | x :: xs => if x = a then 0 else firstIdx a xs + 1

/-- The per-key content of the `attributes` side table built by `parse`
(main.go lines 99-104): for each domain entry, in record order, one copy of
the entry per occurrence of the key among its attribute tags. -/
def attributeEntries (ds : List Domain) (k : String) : List Domain :=
  ds.flatMap (fun d => (d.attributes.filter (fun a => a.key = k)).map (fun _ => d))

/-- The key set of the `attributes` side table (main.go lines 99-104), in
first-occurrence order (Go map iteration order is arbitrary; every key is
written to a distinct map entry, so any fixed order is faithful). -/
def attributeKeys (ds : List Domain) : List String :=
  uniq (ds.flatMap (fun d => d.attributes.map Attribute.key))

/-- Lookup in the category map, embedding Go map read `m[k]`
as an association-list search. -/
def mapGet (m : List (String × List Item)) (k : String) : Option (List Item) :=
  match m with
  | [] => none
  | p :: rest => if p.1 = k then some p.2 else mapGet rest k

/-- Go map assignment `m[k] = v`: overwrite the binding when the key is
present, insert it otherwise. -/
def mapUpsert (m : List (String × List Item)) (k : String) (v : List Item) :
    List (String × List Item) :=
  match m with
  | [] => [(k, v)]
  | p :: rest => if p.1 = k then (k, v) :: rest else p :: mapUpsert rest k v

/-- The key set of the category map. -/
def mapKeys (m : List (String × List Item)) : List String :=
  m.map Prod.fst

/-- Fold a sequence of Go map assignments `acc[g a] = f a` over a key list. -/
def upsertFold (g : String → String) (f : String → List Item)
    (m : List (String × List Item)) : List String → List (String × List Item)
  | [] => m
  | a :: rest => upsertFold g f (mapUpsert m (g a) (f a)) rest

/-- One iteration of the entry loop of `parse` (main.go lines 95-169):
lowercase the country code, store the dedup'd decoded items under the base
code (line 134), then store, for every attribute key observed among the
record's domains, the dedup'd decoding of exactly the entries accumulated
for that key under `code@attribute` (lines 135-168). -/
def parseEntry (m : List (String × List Item)) (e : GeoSiteEntry) :
    List (String × List Item) :=
  upsertFold (fun a => goToLower e.countryCode ++ "@" ++ a)
    (fun a => uniq ((attributeEntries e.domain a).flatMap itemsForDomain))
    (mapUpsert m (goToLower e.countryCode) (uniq (e.domain.flatMap itemsForDomain)))
    (attributeKeys e.domain)

/-- The record loop of `parse` (main.go lines 88-171), over the already
protobuf-decoded entry list. -/
def parse (es : List GeoSiteEntry) : List (String × List Item) :=
  es.foldl parseEntry []

/-- Compiled four-bucket matcher form for one category, after
`geosite.Compile`'s result fields used at main.go lines 218-222. -/
structure CompiledRule where
  domain : List String
  domainSuffix : List String
  domainKeyword : List String
  domainRegex : List String
deriving DecidableEq

/-- Modelled from the spec: the Rule Compiler (`geosite.Compile`, not under
src/) — "partition into four ordered buckets by kind, preserving relative
order within each bucket as found in the input list". -/
def compile (items : List Item) : CompiledRule where
  domain := (items.filter (fun i => i.type = RuleType.domain)).map Item.value
  domainSuffix := (items.filter (fun i => i.type = RuleType.domainSuffix)).map Item.value
  domainKeyword := (items.filter (fun i => i.type = RuleType.domainKeyword)).map Item.value
  domainRegex := (items.filter (fun i => i.type = RuleType.domainRegex)).map Item.value

/-- The bucket of a compiled rule that corresponds to one item kind. -/
def ruleBucket (c : CompiledRule) : RuleType → List String
  | RuleType.domain => c.domain
  | RuleType.domainSuffix => c.domainSuffix
  | RuleType.domainKeyword => c.domainKeyword
  | RuleType.domainRegex => c.domainRegex

/-- The fixed subset key list of `generate` (main.go lines 193-197). -/
def cnCodes : List String :=
  ["cn", "geolocation-!cn", "category-companies@cn"]

/-- The subset selection loop of `generate` (main.go lines 198-201):
`cnDomainMap[cnCode] = domainMap[cnCode]` — a Go map read of a missing key
yields the zero value (nil slice), and the assignment inserts the key. -/
def subsetSelect (m : List (String × List Item)) : List (String × List Item) :=
  cnCodes.foldl (fun acc k => mapUpsert acc k ((mapGet m k).getD [])) []

/-- Embeds `strings.Contains(s, sub)`: substring (infix) containment. -/
def goContains (s sub : String) : Bool :=
  decide (sub.data <:+: s.data)

/-- The inputs that drive the control flow of `release` (main.go lines
266-287): the source release name, the destination release name when the
destination fetch succeeded, and the `NO_SKIP` environment variable
(empty string when unset). -/
structure ReleaseInputs where
  sourceName : String
  destinationName : Option String
  noSkipEnv : String

/-- Outcome of `release`: either it returns early without generating
("already latest"), or it runs `generate`. -/
inductive ReleaseOutcome where
  | skip
  | generate
deriving DecidableEq

/-- The decision logic of `release` (main.go lines 271-281): when the
destination fetch failed only a warning is logged and generation proceeds;
otherwise generation is skipped iff `NO_SKIP != "true"` and the destination
release name contains the source release name. -/
def releaseDecision (r : ReleaseInputs) : ReleaseOutcome :=
  match r.destinationName with
  | none => ReleaseOutcome.generate
  | some destName =>
    if r.noSkipEnv ≠ "true" ∧ goContains destName r.sourceName then
      ReleaseOutcome.skip
    else
      ReleaseOutcome.generate

theorem mem_uniqAux {α : Type} [DecidableEq α] (a : α) (l : List α) :
    ∀ seen : List α, a ∈ uniqAux seen l ↔ a ∈ l ∧ a ∉ seen := by
  induction l with
  | nil => intro seen; simp [uniqAux]
  | cons x xs ih =>
    intro seen
    by_cases hx : x ∈ seen
    · rw [uniqAux, if_pos hx, ih]
      constructor
      · rintro ⟨h1, h2⟩
        exact ⟨List.mem_cons_of_mem _ h1, h2⟩
      · rintro ⟨h1, h2⟩
        rcases List.mem_cons.mp h1 with h | h
        · exact absurd (h ▸ hx) h2
        · exact ⟨h, h2⟩
    · rw [uniqAux, if_neg hx]
      simp only [List.mem_cons, ih]
      constructor
      · rintro (rfl | ⟨h1, h2⟩)
        · exact ⟨Or.inl rfl, hx⟩
        · exact ⟨Or.inr h1, fun hs => h2 (Or.inr hs)⟩
      · rintro ⟨rfl | h1, h2⟩
        · exact Or.inl rfl
        · by_cases hax : a = x
          · exact Or.inl hax
          · exact Or.inr ⟨h1, fun hs => hs.elim hax h2⟩

theorem mem_uniq {α : Type} [DecidableEq α] {a : α} {l : List α} :
    a ∈ uniq l ↔ a ∈ l := by
  simp [uniq, mem_uniqAux]

theorem nodup_uniqAux {α : Type} [DecidableEq α] (l : List α) :
    ∀ seen : List α, (uniqAux seen l).Nodup := by
  induction l with
  | nil => intro seen; simp [uniqAux]
  | cons x xs ih =>
    intro seen
    by_cases hx : x ∈ seen
    · rw [uniqAux, if_pos hx]
      exact ih seen
    · rw [uniqAux, if_neg hx]
      refine List.nodup_cons.mpr ⟨fun hmem => ?_, ih _⟩
      exact ((mem_uniqAux x xs _).mp hmem).2 (List.mem_cons_self x seen)

theorem uniq_nodup {α : Type} [DecidableEq α] (l : List α) : (uniq l).Nodup :=
  nodup_uniqAux l []

theorem uniqAux_sublist {α : Type} [DecidableEq α] (l : List α) :
    ∀ seen : List α, (uniqAux seen l).Sublist l := by
  induction l with
  | nil => intro seen; simp [uniqAux]
  | cons x xs ih =>
    intro seen
    by_cases hx : x ∈ seen
    · rw [uniqAux, if_pos hx]
      exact (ih seen).trans (List.sublist_cons_self x xs)
    · rw [uniqAux, if_neg hx]
      exact (ih (x :: seen)).cons₂ x

theorem uniq_sublist {α : Type} [DecidableEq α] (l : List α) :
    (uniq l).Sublist l :=
  uniqAux_sublist l []

theorem uniqAux_of_nodup {α : Type} [DecidableEq α] (l : List α) :
    ∀ seen : List α, l.Nodup → (∀ a ∈ l, a ∉ seen) → uniqAux seen l = l := by
  induction l with
  | nil => intro seen _ _; simp [uniqAux]
  | cons x xs ih =>
    intro seen hnd hdisj
    have hx : x ∉ seen := hdisj x (List.mem_cons_self x xs)
    have hnd' := List.nodup_cons.mp hnd
    rw [uniqAux, if_neg hx, ih (x :: seen) hnd'.2]
    intro a ha hs
    rcases List.mem_cons.mp hs with h | h
    · exact hnd'.1 (h ▸ ha)
    · exact hdisj a (List.mem_cons_of_mem _ ha) h

theorem uniq_of_nodup {α : Type} [DecidableEq α] {l : List α} (h : l.Nodup) :
    uniq l = l :=
  uniqAux_of_nodup l [] h (by simp)

theorem uniq_idem {α : Type} [DecidableEq α] (l : List α) :
    uniq (uniq l) = uniq l :=
  uniq_of_nodup (uniq_nodup l)

theorem uniq_toFinset {α : Type} [DecidableEq α] (l : List α) :
    (uniq l).toFinset = l.toFinset := by
  ext a
  simp [List.mem_toFinset, mem_uniq]

theorem uniq_length {α : Type} [DecidableEq α] (l : List α) :
    (uniq l).length = l.toFinset.card := by
  rw [← List.toFinset_card_of_nodup (uniq_nodup l), uniq_toFinset]

theorem firstIdx_cons_self {α : Type} [DecidableEq α] (a : α) (l : List α) :
    firstIdx a (a :: l) = 0 := by
  simp [firstIdx]

theorem firstIdx_cons_ne {α : Type} [DecidableEq α] {a x : α} (l : List α)
    (h : x ≠ a) : firstIdx a (x :: l) = firstIdx a l + 1 := by
  simp [firstIdx, h]

theorem uniqAux_pairwise {α : Type} [DecidableEq α] (l : List α) :
    ∀ seen : List α,
      (uniqAux seen l).Pairwise (fun a b => firstIdx a l < firstIdx b l) := by
  induction l with
  | nil => intro seen; simp [uniqAux]
  | cons x xs ih =>
    intro seen
    by_cases hx : x ∈ seen
    · rw [uniqAux, if_pos hx]
      refine List.Pairwise.imp_of_mem ?_ (ih seen)
      intro a b ha hb hlt
      have ha' := (mem_uniqAux a xs seen).mp ha
      have hb' := (mem_uniqAux b xs seen).mp hb
      have hax : x ≠ a := fun h => ha'.2 (h ▸ hx)
      have hbx : x ≠ b := fun h => hb'.2 (h ▸ hx)
      rw [firstIdx_cons_ne xs hax, firstIdx_cons_ne xs hbx]
      omega
    · rw [uniqAux, if_neg hx]
      refine List.pairwise_cons.mpr ⟨?_, ?_⟩
      · intro b hb
        have hb' := (mem_uniqAux b xs (x :: seen)).mp hb
        have hbx : x ≠ b := fun h => hb'.2 (h ▸ List.mem_cons_self x seen)
        rw [firstIdx_cons_self, firstIdx_cons_ne xs hbx]
        omega
      · refine List.Pairwise.imp_of_mem ?_ (ih (x :: seen))
        intro a b ha hb hlt
        have ha' := (mem_uniqAux a xs (x :: seen)).mp ha
        have hb' := (mem_uniqAux b xs (x :: seen)).mp hb
        have hax : x ≠ a := fun h => ha'.2 (h ▸ List.mem_cons_self x seen)
        have hbx : x ≠ b := fun h => hb'.2 (h ▸ List.mem_cons_self x seen)
        rw [firstIdx_cons_ne xs hax, firstIdx_cons_ne xs hbx]
        omega

theorem uniq_pairwise_firstIdx {α : Type} [DecidableEq α] (l : List α) :
    (uniq l).Pairwise (fun a b => firstIdx a l < firstIdx b l) :=
  uniqAux_pairwise l []

theorem mapGet_upsert_self (m : List (String × List Item)) (k : String)
    (v : List Item) : mapGet (mapUpsert m k v) k = some v := by
  induction m with
  | nil => simp [mapUpsert, mapGet]
  | cons p rest ih =>
    by_cases h : p.1 = k
    · simp [mapUpsert, h, mapGet]
    · simp [mapUpsert, h, mapGet, ih]

theorem mapGet_upsert_ne (m : List (String × List Item)) {k k' : String}
    (v : List Item) (h : k' ≠ k) :
    mapGet (mapUpsert m k' v) k = mapGet m k := by
  induction m with
  | nil => simp [mapUpsert, mapGet, h]
  | cons p rest ih =>
    by_cases hp : p.1 = k'
    · rw [mapUpsert, if_pos hp, mapGet, mapGet, if_neg (hp ▸ h), if_neg ?_]
      exact fun hpk => h (hp ▸ hpk)
    · rw [mapUpsert, if_neg hp]
      by_cases hk : p.1 = k
      · rw [mapGet, if_pos hk, mapGet, if_pos hk]
      · rw [mapGet, if_neg hk, mapGet, if_neg hk, ih]

theorem mem_mapKeys_upsert (m : List (String × List Item)) (k : String)
    (v : List Item) (k' : String) (h : k' ∈ mapKeys (mapUpsert m k v)) :
    k' ∈ mapKeys m ∨ k' = k := by
  induction m with
  | nil =>
    simp [mapUpsert, mapKeys] at h
    exact Or.inr h
  | cons p rest ih =>
    by_cases hp : p.1 = k
    · rw [mapUpsert, if_pos hp] at h
      rcases List.mem_map.mp h with ⟨q, hq, rfl⟩
      rcases List.mem_cons.mp hq with rfl | hq'
      · exact Or.inr rfl
      · exact Or.inl (List.mem_map.mpr ⟨q, List.mem_cons_of_mem _ hq', rfl⟩)
    · rw [mapUpsert, if_neg hp] at h
      rcases List.mem_map.mp h with ⟨q, hq, rfl⟩
      rcases List.mem_cons.mp hq with rfl | hq'
      · exact Or.inl (List.mem_map.mpr ⟨q, List.mem_cons_self _ _, rfl⟩)
      · rcases ih (List.mem_map.mpr ⟨q, hq', rfl⟩) with h1 | h1
        · exact Or.inl (List.mem_map.mpr
            (by rcases List.mem_map.mp h1 with ⟨r, hr, hrk⟩
                exact ⟨r, List.mem_cons_of_mem _ hr, hrk⟩))
        · exact Or.inr h1

theorem upsertFold_get_of_notin (g : String → String) (f : String → List Item)
    (attrs : List String) :
    ∀ (m : List (String × List Item)) (k : String), (∀ a ∈ attrs, g a ≠ k) →
      mapGet (upsertFold g f m attrs) k = mapGet m k := by
  induction attrs with
  | nil => intro m k _; rfl
  | cons b rest ih =>
    intro m k hk
    rw [upsertFold, ih _ _ (fun a ha => hk a (List.mem_cons_of_mem _ ha)),
      mapGet_upsert_ne _ _ (hk b (List.mem_cons_self _ _))]

theorem upsertFold_get_of_mem (g : String → String) (f : String → List Item)
    (attrs : List String) (hnd : (attrs.map g).Nodup) :
    ∀ (m : List (String × List Item)) (a : String), a ∈ attrs →
      mapGet (upsertFold g f m attrs) (g a) = some (f a) := by
  induction attrs with
  | nil => intro m a ha; cases ha
  | cons b rest ih =>
    intro m a ha
    have hnd' : (∀ x ∈ rest, ¬g x = g b) ∧ (rest.map g).Nodup := by
      simpa using hnd
    rcases List.mem_cons.mp ha with rfl | ha'
    · rw [upsertFold, upsertFold_get_of_notin g f rest _ _ hnd'.1,
        mapGet_upsert_self]
    · rw [upsertFold]
      exact ih hnd'.2 _ a ha'

theorem mem_mapKeys_upsertFold (g : String → String) (f : String → List Item)
    (attrs : List String) :
    ∀ (m : List (String × List Item)) (k : String),
      k ∈ mapKeys (upsertFold g f m attrs) →
        k ∈ mapKeys m ∨ ∃ a ∈ attrs, k = g a := by
  induction attrs with
  | nil => intro m k h; exact Or.inl h
  | cons b rest ih =>
    intro m k h
    rw [upsertFold] at h
    rcases ih _ _ h with h1 | ⟨a, ha, rfl⟩
    · rcases mem_mapKeys_upsert _ _ _ _ h1 with h2 | rfl
      · exact Or.inl h2
      · exact Or.inr ⟨b, List.mem_cons_self _ _, rfl⟩
    · exact Or.inr ⟨a, List.mem_cons_of_mem _ ha, rfl⟩

theorem string_append_left_cancel {s t u : String} (h : s ++ t = s ++ u) :
    t = u := by
  apply String.ext
  have h2 := congrArg String.data h
  rw [String.data_append, String.data_append] at h2
  exact List.append_cancel_left h2

theorem pseudoKey_ne_code (code a : String) : code ++ "@" ++ a ≠ code := by
  intro h
  have hlen := congrArg String.length h
  rw [String.length_append, String.length_append] at hlen
  have h1 : ("@" : String).length = 1 := rfl
  omega

theorem pseudoKey_injective (code : String) :
    Function.Injective (fun a => code ++ "@" ++ a) := by
  intro a b h
  exact string_append_left_cancel h

theorem parseEntry_get_base (m : List (String × List Item)) (e : GeoSiteEntry) :
    mapGet (parseEntry m e) (goToLower e.countryCode) =
      some (uniq (e.domain.flatMap itemsForDomain)) := by
  rw [parseEntry,
    upsertFold_get_of_notin _ _ _ _ _ (fun a _ => pseudoKey_ne_code _ a),
    mapGet_upsert_self]

theorem parseEntry_get_attr (m : List (String × List Item)) (e : GeoSiteEntry)
    (a : String) (ha : a ∈ attributeKeys e.domain) :
    mapGet (parseEntry m e) (goToLower e.countryCode ++ "@" ++ a) =
      some (uniq ((attributeEntries e.domain a).flatMap itemsForDomain)) := by
  rw [parseEntry]
  exact upsertFold_get_of_mem _ _ _
    (List.Nodup.map (pseudoKey_injective _) (uniq_nodup _)) _ a ha

theorem parseEntry_get_attr_absent (m : List (String × List Item))
    (e : GeoSiteEntry) (a : String) (ha : a ∉ attributeKeys e.domain) :
    mapGet (parseEntry m e) (goToLower e.countryCode ++ "@" ++ a) =
      mapGet m (goToLower e.countryCode ++ "@" ++ a) := by
  rw [parseEntry,
    upsertFold_get_of_notin _ _ _ _ _ ?_,
    mapGet_upsert_ne _ _ (Ne.symm (pseudoKey_ne_code _ a))]
  intro x hx hgx
  exact ha ((pseudoKey_injective _ hgx) ▸ hx)

theorem mem_attributeKeys {ds : List Domain} {tag : String} :
    tag ∈ attributeKeys ds ↔ ∃ d ∈ ds, ∃ a ∈ d.attributes, a.key = tag := by
  rw [attributeKeys, mem_uniq]
  simp [List.mem_flatMap, List.mem_map]

theorem filtered_occurrence (d : Domain) (tag : String) :
    ∀ l : List Attribute, (l.map Attribute.key).Nodup →
      (l.filter (fun a => a.key = tag)).map (fun _ => d) =
        if l.any (fun a => a.key = tag) then [d] else [] := by
  intro l
  induction l with
  | nil => intro _; rfl
  | cons a rest ih =>
    intro hnd
    have hnd' : (∀ x ∈ rest, ¬x.key = a.key) ∧ (rest.map Attribute.key).Nodup := by
      simpa using hnd
    by_cases hk : a.key = tag
    · have hrest : rest.filter (fun x => x.key = tag) = [] := by
        rw [List.filter_eq_nil_iff]
        intro b hb hbk
        exact hnd'.1 b hb (by rw [of_decide_eq_true hbk, hk])
      simp [List.filter_cons, List.any_cons, hk, hrest]
    · simp [List.filter_cons, List.any_cons, hk, ih hnd'.2]

theorem attributeEntries_eq_filter (ds : List Domain) (tag : String)
    (h : ∀ d ∈ ds, (d.attributes.map Attribute.key).Nodup) :
    attributeEntries ds tag =
      ds.filter (fun d => d.attributes.any (fun a => a.key = tag)) := by
  induction ds with
  | nil => rfl
  | cons d rest ih =>
    have ih' := ih (fun d' hd' => h d' (List.mem_cons_of_mem _ hd'))
    rw [attributeEntries] at ih' ⊢
    simp only [List.flatMap_cons]
    rw [filtered_occurrence d tag d.attributes (h d (List.mem_cons_self _ _)),
      ih', List.filter_cons]
    by_cases hany : d.attributes.any (fun a => a.key = tag)
    · simp [hany]
    · simp [hany]

theorem map_value_filter (t : RuleType) (items : List Item) :
    ((items.filter (fun i => i.type = t)).map Item.value).map
        (fun v => Item.mk t v) =
      items.filter (fun i => i.type = t) := by
  rw [List.map_map]
  have hcongr : ∀ i ∈ items.filter (fun i => i.type = t),
      ((fun v => Item.mk t v) ∘ Item.value) i = id i := by
    intro i hi
    have ht : i.type = t := of_decide_eq_true (List.mem_filter.mp hi).2
    subst ht
    rfl
  rw [List.map_congr_left hcongr, List.map_id]

theorem compile_length (items : List Item) :
    (compile items).domain.length + (compile items).domainSuffix.length +
        (compile items).domainKeyword.length +
        (compile items).domainRegex.length =
      items.length := by
  induction items with
  | nil => rfl
  | cons i rest ih =>
    rcases i with ⟨t, v⟩
    cases t <;>
      simp [compile, List.filter_cons, List.length_map] at ih ⊢ <;>
      omega

theorem compile_mem_bucket (items : List Item) :
    ∀ it ∈ items, it.value ∈ ruleBucket (compile items) it.type := by
  intro it hit
  rcases it with ⟨t, v⟩
  have hf : (⟨t, v⟩ : Item) ∈ items.filter (fun i => i.type = t) :=
    List.mem_filter.mpr ⟨hit, by simp⟩
  cases t <;> exact List.mem_map.mpr ⟨_, hf, rfl⟩

theorem compile_bucket_mem (items : List Item) :
    ∀ t : RuleType, ∀ v ∈ ruleBucket (compile items) t,
      Item.mk t v ∈ items := by
  intro t v hv
  cases t <;>
  · rcases List.mem_map.mp hv with ⟨i, hi, rfl⟩
    rcases List.mem_filter.mp hi with ⟨hmem, hdec⟩
    rw [← of_decide_eq_true hdec]
    exact hmem

theorem subsetSelect_eq (m : List (String × List Item)) :
    subsetSelect m =
      [("cn", (mapGet m "cn").getD []),
       ("geolocation-!cn", (mapGet m "geolocation-!cn").getD []),
       ("category-companies@cn", (mapGet m "category-companies@cn").getD [])] :=
  rfl

theorem mem_mapKeys_parseEntry (m : List (String × List Item))
    (e : GeoSiteEntry) (k : String) (h : k ∈ mapKeys (parseEntry m e)) :
    k ∈ mapKeys m ∨ k = goToLower e.countryCode ∨
      ∃ d ∈ e.domain, ∃ a ∈ d.attributes,
        k = goToLower e.countryCode ++ "@" ++ a.key := by
  rw [parseEntry] at h
  rcases mem_mapKeys_upsertFold _ _ _ _ _ h with h1 | ⟨a, ha, rfl⟩
  · rcases mem_mapKeys_upsert _ _ _ _ h1 with h2 | rfl
    · exact Or.inl h2
    · exact Or.inr (Or.inl rfl)
  · rcases mem_attributeKeys.mp ha with ⟨d, hd, b, hb, hkey⟩
    exact Or.inr (Or.inr ⟨d, hd, b, hb, by rw [hkey]⟩)

theorem parse_foldl_keys (es : List GeoSiteEntry) :
    ∀ (m : List (String × List Item)) (k : String),
      k ∈ mapKeys (es.foldl parseEntry m) →
        k ∈ mapKeys m ∨ ∃ e ∈ es,
          k = goToLower e.countryCode ∨
            ∃ d ∈ e.domain, ∃ a ∈ d.attributes,
              k = goToLower e.countryCode ++ "@" ++ a.key := by
  induction es with
  | nil => intro m k h; exact Or.inl h
  | cons e rest ih =>
    intro m k h
    rw [List.foldl_cons] at h
    rcases ih _ _ h with h1 | ⟨e', he', hsh⟩
    · rcases mem_mapKeys_parseEntry _ _ _ h1 with h2 | h2
      · exact Or.inl h2
      · exact Or.inr ⟨e, List.mem_cons_self _ _, h2⟩
    · exact Or.inr ⟨e', List.mem_cons_of_mem _ he', hsh⟩

/-- C1: a `RootDomain` entry whose value contains a `.` decodes to exactly two
items, `Domain(value)` followed by `DomainSuffix("." + value)`, in that order;
a dotless `RootDomain` value decodes to exactly one item,
`DomainSuffix("." + value)`, and never a bare `Domain` item. -/
theorem rootDomain_decoding (d : Domain) (h : d.type = Domain_RootDomain) :
    (containsDot d.value = true →
      itemsForDomain d =
        [⟨RuleType.domain, d.value⟩, ⟨RuleType.domainSuffix, "." ++ d.value⟩]) ∧
    (containsDot d.value = false →
      itemsForDomain d = [⟨RuleType.domainSuffix, "." ++ d.value⟩]) := by
  constructor <;> intro hc <;>
    simp [itemsForDomain, h, hc, Domain_Plain, Domain_Regex, Domain_RootDomain]

/-- Witness for C1: the two `RootDomain` shapes at concrete values. -/
theorem rootDomain_decoding_witness :
    itemsForDomain ⟨2, "foo.com", []⟩ =
        [⟨RuleType.domain, "foo.com"⟩, ⟨RuleType.domainSuffix, ".foo.com"⟩] ∧
    itemsForDomain ⟨2, "bar", []⟩ = [⟨RuleType.domainSuffix, ".bar"⟩] :=
  ⟨((rootDomain_decoding ⟨2, "foo.com", []⟩ rfl).1 (by decide)).trans (by decide),
   ((rootDomain_decoding ⟨2, "bar", []⟩ rfl).2 (by decide)).trans (by decide)⟩

/-- C2: for a record whose domain entries carry set-like attribute tag lists,
the base category holds the dedup'd decoding of all entries (tagged entries
included), and each pseudo-category `code@tag` holds the dedup'd decoding of
exactly the entries carrying `tag` (entries without the tag excluded); a tag
carried by no entry produces no pseudo-category. -/
theorem parse_attribute_fanout (e : GeoSiteEntry)
    (hA : ∀ d ∈ e.domain, (d.attributes.map Attribute.key).Nodup) :
    mapGet (parse [e]) (goToLower e.countryCode) =
        some (uniq (e.domain.flatMap itemsForDomain)) ∧
    (∀ d ∈ e.domain, ∀ it ∈ itemsForDomain d,
        it ∈ uniq (e.domain.flatMap itemsForDomain)) ∧
    (∀ tag : String, (∃ d ∈ e.domain, ∃ a ∈ d.attributes, a.key = tag) →
        mapGet (parse [e]) (goToLower e.countryCode ++ "@" ++ tag) =
          some (uniq ((e.domain.filter
              (fun d => d.attributes.any (fun a => a.key = tag))).flatMap
            itemsForDomain))) ∧
    (∀ tag : String, (¬∃ d ∈ e.domain, ∃ a ∈ d.attributes, a.key = tag) →
        mapGet (parse [e]) (goToLower e.countryCode ++ "@" ++ tag) = none) := by
  have hparse : parse [e] = parseEntry [] e := rfl
  refine ⟨?_, ?_, ?_, ?_⟩
  · rw [hparse, parseEntry_get_base]
  · intro d hd it hit
    exact mem_uniq.mpr (List.mem_flatMap.mpr ⟨d, hd, hit⟩)
  · intro tag htag
    rw [hparse, parseEntry_get_attr _ _ _ (mem_attributeKeys.mpr htag),
      attributeEntries_eq_filter _ _ hA]
  · intro tag htag
    rw [hparse,
      parseEntry_get_attr_absent _ _ _
        (fun hmem => htag (mem_attributeKeys.mp hmem))]
    rfl

/-- Witness for C2: two entries tagged `ads` and one untagged entry; the
pseudo-category holds exactly the two tagged entries' items. -/
theorem parse_attribute_fanout_witness :
    mapGet
        (parse [⟨"GEO",
          [⟨0, "k1", [⟨"ads"⟩]⟩, ⟨3, "f1", [⟨"ads"⟩]⟩, ⟨0, "k2", []⟩]⟩])
        "geo@ads" =
      some [⟨RuleType.domainKeyword, "k1"⟩, ⟨RuleType.domain, "f1"⟩] :=
  ((parse_attribute_fanout
      ⟨"GEO", [⟨0, "k1", [⟨"ads"⟩]⟩, ⟨3, "f1", [⟨"ads"⟩]⟩, ⟨0, "k2", []⟩]⟩
      (by decide)).2.2.1 "ads" (by decide)).trans (by decide)

/-- C3: dedup is idempotent, keeps an already-unique list unchanged, and
returns the distinct items in first-occurrence order, the output length being
the number of distinct items. -/
theorem uniq_dedup_spec (l : List Item) :
    (l.Nodup → uniq l = l) ∧
    uniq (uniq l) = uniq l ∧
    (uniq l).Nodup ∧
    (uniq l).Sublist l ∧
    (∀ a : Item, a ∈ uniq l ↔ a ∈ l) ∧
    (uniq l).length = l.toFinset.card ∧
    (uniq l).Pairwise (fun a b => firstIdx a l < firstIdx b l) :=
  ⟨fun h => uniq_of_nodup h, uniq_idem l, uniq_nodup l, uniq_sublist l,
    fun _ => mem_uniq, uniq_length l, uniq_pairwise_firstIdx l⟩

/-- Witness for C3: an already-unique list is returned unchanged. -/
theorem uniq_dedup_spec_witness :
    ([⟨RuleType.domain, "a"⟩, ⟨RuleType.domainSuffix, ".a"⟩] : List Item).Nodup ∧
    uniq [(⟨RuleType.domain, "a"⟩ : Item), ⟨RuleType.domainSuffix, ".a"⟩] =
      [⟨RuleType.domain, "a"⟩, ⟨RuleType.domainSuffix, ".a"⟩] :=
  ⟨by decide, (uniq_dedup_spec _).1 (by decide)⟩

/-- C4: the end-to-end scenario record compiles category `"test"` to exactly
the four expected buckets. -/
theorem end_to_end_test_category :
    compile ((mapGet (parse [⟨"test",
        [⟨Domain_Full, "example.com", []⟩, ⟨Domain_RootDomain, "foo.com", []⟩,
         ⟨Domain_RootDomain, "bar", []⟩, ⟨Domain_Plain, "ads", []⟩]⟩])
        "test").getD []) =
      ⟨["example.com", "foo.com"], [".foo.com", ".bar"], ["ads"], []⟩ := by
  decide

/-- C5: compilation is a lossless partition by kind: each bucket is an
order-preserving subsequence of the input, the bucket sizes sum to the input
length, every item lands in the bucket of its kind, and every bucket element
comes from an input item of that kind. -/
theorem compile_partition (items : List Item) :
    ((compile items).domain.map (fun v => Item.mk RuleType.domain v)).Sublist
        items ∧
    ((compile items).domainSuffix.map
        (fun v => Item.mk RuleType.domainSuffix v)).Sublist items ∧
    ((compile items).domainKeyword.map
        (fun v => Item.mk RuleType.domainKeyword v)).Sublist items ∧
    ((compile items).domainRegex.map
        (fun v => Item.mk RuleType.domainRegex v)).Sublist items ∧
    ((compile items).domain.length + (compile items).domainSuffix.length +
        (compile items).domainKeyword.length +
        (compile items).domainRegex.length =
      items.length) ∧
    (∀ it ∈ items, it.value ∈ ruleBucket (compile items) it.type) ∧
    (∀ t : RuleType, ∀ v ∈ ruleBucket (compile items) t,
      Item.mk t v ∈ items) := by
  refine ⟨?_, ?_, ?_, ?_, compile_length items, compile_mem_bucket items,
    compile_bucket_mem items⟩
  · show (((items.filter (fun i => i.type = RuleType.domain)).map
        Item.value).map (fun v => Item.mk RuleType.domain v)).Sublist items
    rw [map_value_filter]
    exact List.filter_sublist items
  · show (((items.filter (fun i => i.type = RuleType.domainSuffix)).map
        Item.value).map (fun v => Item.mk RuleType.domainSuffix v)).Sublist items
    rw [map_value_filter]
    exact List.filter_sublist items
  · show (((items.filter (fun i => i.type = RuleType.domainKeyword)).map
        Item.value).map (fun v => Item.mk RuleType.domainKeyword v)).Sublist items
    rw [map_value_filter]
    exact List.filter_sublist items
  · show (((items.filter (fun i => i.type = RuleType.domainRegex)).map
        Item.value).map (fun v => Item.mk RuleType.domainRegex v)).Sublist items
    rw [map_value_filter]
    exact List.filter_sublist items

/-- Witness for C5: a concrete item lands in the bucket of its kind. -/
theorem compile_partition_witness :
    ("a" : String) ∈
      ruleBucket (compile [(⟨RuleType.domain, "a"⟩ : Item)]) RuleType.domain :=
  (compile_partition [(⟨RuleType.domain, "a"⟩ : Item)]).2.2.2.2.2.1
    ⟨RuleType.domain, "a"⟩ (by decide)

/-- C6 counterexample: selecting from a full map that lacks
`"category-companies@cn"` still puts that key into the subset map (bound to
the empty list), so the subset's key set is not the intersection of the
requested keys with the full map's keys. -/
theorem subset_keyset_counterexample :
    "category-companies@cn" ∈
        mapKeys (subsetSelect [("cn", [⟨RuleType.domain, "a"⟩])]) ∧
    "category-companies@cn" ∉
        mapKeys [("cn", [(⟨RuleType.domain, "a"⟩ : Item)])] ∧
    mapGet (subsetSelect [("cn", [⟨RuleType.domain, "a"⟩])])
        "category-companies@cn" = some [] := by
  decide

/-- C6 amended: the subset selector's key set is exactly the three requested
keys; a requested key present in the full map keeps its identical item list
and a key absent from the full map is bound to the empty list, never causing
a failure. -/
theorem subset_select_projection (m : List (String × List Item)) :
    mapKeys (subsetSelect m) = cnCodes ∧
    ∀ k ∈ cnCodes, mapGet (subsetSelect m) k = some ((mapGet m k).getD []) := by
  rw [subsetSelect_eq]
  refine ⟨rfl, ?_⟩
  intro k hk
  simp only [cnCodes, List.mem_cons, List.not_mem_nil, or_false] at hk
  rcases hk with rfl | rfl | rfl <;> rfl

/-- Witness for C6 amended: a key missing from an empty full map is still
selected, bound to the empty list. -/
theorem subset_select_projection_witness :
    ("cn" : String) ∈ cnCodes ∧ mapGet (subsetSelect []) "cn" = some [] :=
  ⟨by decide, ((subset_select_projection []).2 "cn" (by decide)).trans (by decide)⟩

/-- C7: an entry whose type is outside `{Plain, Regex, RootDomain, Full}`
emits no rule item, and decoding of the surrounding entries proceeds exactly
as if the entry were absent. -/
theorem unknown_type_dropped (d : Domain)
    (h0 : d.type ≠ Domain_Plain) (h1 : d.type ≠ Domain_Regex)
    (h2 : d.type ≠ Domain_RootDomain) (h3 : d.type ≠ Domain_Full) :
    itemsForDomain d = [] ∧
    ∀ ds1 ds2 : List Domain,
      (ds1 ++ d :: ds2).flatMap itemsForDomain =
        (ds1 ++ ds2).flatMap itemsForDomain := by
  have hnil : itemsForDomain d = [] := by
    simp [itemsForDomain, h0, h1, h2, h3]
  refine ⟨hnil, fun ds1 ds2 => ?_⟩
  simp [List.flatMap_append, List.flatMap_cons, hnil]

/-- Witness for C7: an entry of unknown type 9 is dropped from decoding. -/
theorem unknown_type_dropped_witness :
    itemsForDomain ⟨9, "x", []⟩ = [] ∧
    ([(⟨0, "k", []⟩ : Domain)] ++ (⟨9, "x", []⟩ : Domain) ::
        [(⟨3, "f", []⟩ : Domain)]).flatMap itemsForDomain =
      ([(⟨0, "k", []⟩ : Domain)] ++
        [(⟨3, "f", []⟩ : Domain)]).flatMap itemsForDomain :=
  ⟨(unknown_type_dropped ⟨9, "x", []⟩ (by decide) (by decide) (by decide)
      (by decide)).1,
   (unknown_type_dropped ⟨9, "x", []⟩ (by decide) (by decide) (by decide)
      (by decide)).2 [⟨0, "k", []⟩] [⟨3, "f", []⟩]⟩

/-- C8: every key of the built category map is either the lowercased country
code of some record, or that lowercased code followed by `"@"` and an
attribute key taken verbatim from the record. -/
theorem parse_key_shape (es : List GeoSiteEntry) (k : String)
    (h : k ∈ mapKeys (parse es)) :
    ∃ e ∈ es, k = goToLower e.countryCode ∨
      ∃ d ∈ e.domain, ∃ a ∈ d.attributes,
        k = goToLower e.countryCode ++ "@" ++ a.key := by
  rcases parse_foldl_keys es [] k h with h1 | h1
  · exact (List.not_mem_nil k h1).elim
  · exact h1

/-- Witness for C8: the pseudo-category key of an upper-case record. -/
theorem parse_key_shape_witness :
    ∃ e ∈ [(⟨"CN", [⟨0, "v", [⟨"a"⟩]⟩]⟩ : GeoSiteEntry)],
      "cn@a" = goToLower e.countryCode ∨
        ∃ d ∈ e.domain, ∃ a ∈ d.attributes,
          "cn@a" = goToLower e.countryCode ++ "@" ++ a.key :=
  parse_key_shape _ _ (by decide)

/-- C9: with both release names available, regeneration is skipped iff the
destination release name contains the source release name as a substring and
the `NO_SKIP` override is not `"true"`; the skip outcome returns before any
generation work is reached. -/
theorem release_skip_iff (src dest noSkip : String) :
    releaseDecision ⟨src, some dest, noSkip⟩ = ReleaseOutcome.skip ↔
      goContains dest src = true ∧ noSkip ≠ "true" := by
  show (if noSkip ≠ "true" ∧ goContains dest src = true then ReleaseOutcome.skip
      else ReleaseOutcome.generate) = ReleaseOutcome.skip ↔
    goContains dest src = true ∧ noSkip ≠ "true"
  by_cases h : noSkip ≠ "true" ∧ goContains dest src = true
  · rw [if_pos h]
    simp [h.1, h.2]
  · rw [if_neg h]
    constructor
    · intro hc
      exact absurd hc (by decide)
    · rintro ⟨hg, hn⟩
      exact absurd ⟨hn, hg⟩ h

/-- Witness for C9: a destination name containing the source name with no
override skips regeneration. -/
theorem release_skip_iff_witness :
    releaseDecision ⟨"v1", some "rules v1 build", ""⟩ = ReleaseOutcome.skip :=
  (release_skip_iff "v1" "rules v1 build" "").mpr ⟨by decide, by decide⟩

/-- C10: when two records collide on the lowercased code, the later record's
write fully overwrites the earlier one's entry: the base key and every
pseudo-category key written by the later record look up to the same values as
parsing the later record alone. -/
theorem parse_last_write_wins (e1 e2 : GeoSiteEntry)
    (_hcode : goToLower e1.countryCode = goToLower e2.countryCode) :
    mapGet (parse [e1, e2]) (goToLower e2.countryCode) =
        mapGet (parse [e2]) (goToLower e2.countryCode) ∧
    ∀ a ∈ attributeKeys e2.domain,
      mapGet (parse [e1, e2]) (goToLower e2.countryCode ++ "@" ++ a) =
        mapGet (parse [e2]) (goToLower e2.countryCode ++ "@" ++ a) := by
  have h12 : parse [e1, e2] = parseEntry (parseEntry [] e1) e2 := rfl
  have h2 : parse [e2] = parseEntry [] e2 := rfl
  constructor
  · rw [h12, h2, parseEntry_get_base, parseEntry_get_base]
  · intro a ha
    rw [h12, h2, parseEntry_get_attr _ _ _ ha, parseEntry_get_attr _ _ _ ha]

/-- Witness for C10: records with codes `"CN"` and `"cn"` collide; the final
entry equals the later record's own parse. -/
theorem parse_last_write_wins_witness :
    mapGet (parse [⟨"CN", [⟨0, "old", []⟩]⟩, ⟨"cn", [⟨3, "new", []⟩]⟩])
        (goToLower "cn") =
      mapGet (parse [(⟨"cn", [⟨3, "new", []⟩]⟩ : GeoSiteEntry)])
        (goToLower "cn") :=
  (parse_last_write_wins ⟨"CN", [⟨0, "old", []⟩]⟩ ⟨"cn", [⟨3, "new", []⟩]⟩
    (by decide)).1

end SingGeosite
